import Mathlib

/-!
Verification of the convolution engine in `src/main.rs`.

The embedding models 8-bit channel values as naturals and the `f32`
weights and accumulators as exact rationals: every arithmetic step of the
Rust code (weighted accumulation, `round`, `clamp`, cast to `u8`) is
translated one-for-one, with `f32` replaced by `ℚ`.  `f32::round` rounds
half away from zero, which `roundAway` reproduces on `ℚ`.

An image is a width, a height, and a total pixel function; the engine only
ever reads in-range coordinates, which the theorems track explicitly.
Kernels are lists of rows, exactly as `Vec<Vec<f32>>`.  The per-pixel body
is wrapped in `Option`: evaluating the clamp bounds `width - 1` /
`height - 1` on a zero dimension is an arithmetic error in Rust (overflow
panic in debug builds, a panicking `clamp(0, -1)` in release builds), so
the model returns `none` exactly when the body of the pixel loop would
evaluate those bounds on a zero dimension.
-/

namespace KernelRs

/-- An RGB image: dimensions plus a total pixel accessor.  Channel `c`
(0 = R, 1 = G, 2 = B) of the pixel at column `x`, row `y` is
`pix x y c`; only coordinates with `x < width`, `y < height` are ever
read by the engine. -/
structure Image where
  width : Nat
  height : Nat
  pix : Nat → Nat → Fin 3 → Nat

/-- Well-formedness: every in-range channel value fits in 8 bits, as the
`u8` channels of `RgbImage` guarantee. -/
def Image.Wf (img : Image) : Prop :=
  ∀ x y c, x < img.width → y < img.height → img.pix x y c ≤ 255

/-- A convolution kernel, exactly as the Rust `Vec<Vec<f32>>`. -/
abbrev Kernel := List (List ℚ)

/-- `generate_box_blur_kernel` from `src/main.rs`: a `size × size` matrix
every cell of which is `1 / (size * size)`. -/
def generate_box_blur_kernel (size : Nat) : Kernel :=
  List.replicate size (List.replicate size (1 / ((size * size : Nat) : ℚ)))

/-- `generate_sharpen_kernel` from `src/main.rs`: the fixed 3×3 sharpen
matrix. -/
def generate_sharpen_kernel : Kernel :=
  [[0, -1, 0], [-1, 5, -1], [0, -1, 0]]

/-- Rust `clamp` on integers (`v.clamp(lo, hi)`), for `lo ≤ hi`. -/
def clampI (v lo hi : ℤ) : ℤ := max lo (min hi v)

/-- `f32::round`: round to the nearest integer, halves away from zero. -/
def roundAway (q : ℚ) : ℤ :=
  if 0 ≤ q then Int.floor (q + 1 / 2) else -Int.floor (-q + 1 / 2)

/-- `sum.round().clamp(0.0, 255.0) as u8` from the per-channel store. -/
def quantize (q : ℚ) : Nat := (clampI (roundAway q) 0 255).toNat

/-- `half_k = kernel_size as i32 / 2`. -/
def halfK (ker : Kernel) : ℤ := (ker.length : ℤ) / 2

/-- `(p).clamp(0, (bound - 1) as i32) as u32`: the edge-replication clamp
of one axis of a neighbourhood coordinate.  Faithful only for
`0 < bound`; the engine establishes that before evaluating it. -/
def clampedCoord (p : ℤ) (bound : Nat) : Nat :=
  (clampI p 0 ((bound : ℤ) - 1)).toNat

/-- `nx = (x as i32 + kx as i32 - half_k).clamp(0, (width - 1) as i32)`. -/
def nbX (img : Image) (ker : Kernel) (x kx : Nat) : Nat :=
  clampedCoord ((x : ℤ) + (kx : ℤ) - halfK ker) img.width

/-- `ny = (y as i32 + ky as i32 - half_k).clamp(0, (height - 1) as i32)`. -/
def nbY (img : Image) (ker : Kernel) (y ky : Nat) : Nat :=
  clampedCoord ((y : ℤ) + (ky : ℤ) - halfK ker) img.height

/-- `kernel[ky][kx]`, totalised with default `0`; `kernelGet` below keeps
track of when the underlying indexing is actually in bounds. -/
def kentry (ker : Kernel) (ky kx : Nat) : ℚ := (ker.getD ky []).getD kx 0

/-- `kernel[ky][kx]` as the partial operation it is in Rust: `none` is the
panic branch of out-of-bounds indexing. -/
def kernelGet (ker : Kernel) (ky kx : Nat) : Option ℚ :=
  (ker.get? ky).bind fun row => row.get? kx

/-- The accumulation loops of `apply_convolution` for one channel of one
output pixel: outer loop over `ky`, inner loop over `kx`, accumulating
`neighbor_pixel[c] as f32 * kernel[ky][kx]` from `0.0`. -/
def convSum (img : Image) (ker : Kernel) (x y : Nat) (c : Fin 3) : ℚ :=
  (List.range ker.length).foldl (fun acc ky =>
    (List.range ker.length).foldl (fun acc2 kx =>
      acc2 + (img.pix (nbX img ker x kx) (nbY img ker y ky) c : ℚ) * kentry ker ky kx) acc) 0

/-- The body of the per-pixel loop.  It evaluates the clamp bounds
`width - 1` and `height - 1` iff the kernel is non-empty, and doing so on
a zero dimension is an error (`none`). -/
def convPixelChecked (img : Image) (ker : Kernel) (x y : Nat) : Option (Fin 3 → Nat) :=
  if ker.length = 0 ∨ (0 < img.width ∧ 0 < img.height)
  then some (fun c => quantize (convSum img ker x y c))
  else none

/-- The pixels visited by `enumerate_rows_mut` / the inner pixel loop:
each row `y < height` contributes its `width` pixels. -/
def processedPixels (img : Image) : List (Nat × Nat) :=
  (List.range img.height).flatMap fun y => (List.range img.width).map fun x => (x, y)

/-- The output image of `apply_convolution`: same dimensions, every pixel
produced by the per-pixel body. -/
def convImage (img : Image) (ker : Kernel) : Image :=
  { width := img.width
    height := img.height
    pix := fun x y c => ((convPixelChecked img ker x y).getD (fun _ => 0)) c }

/-- `apply_convolution` from `src/main.rs`: allocate an output of the same
dimensions and run the per-pixel body over every pixel of every row;
`none` if any visited pixel's body errors. -/
def apply_convolution (img : Image) (ker : Kernel) : Option Image :=
  if (processedPixels img).all (fun p => (convPixelChecked img ker p.1 p.2).isSome)
  then some (convImage img ker)
  else none

/-- Sum of all kernel weights. -/
def kernelSum (ker : Kernel) : ℚ := (ker.map List.sum).sum

/-- A kernel is square when every row is as long as the list of rows. -/
def Kernel.Square (ker : Kernel) : Prop := ∀ row ∈ ker, row.length = ker.length

/-- A concrete 2×2 test image, uniformly the colour (7, 7, 7). -/
def testImg : Image := ⟨2, 2, fun _ _ _ => 7⟩

/-- A concrete 1×1 all-white test image. -/
def whiteImg : Image := ⟨1, 1, fun _ _ _ => 255⟩

/-- A concrete 0×2 test image. -/
def emptyImg : Image := ⟨0, 2, fun _ _ _ => 0⟩

/-- A concrete 2×2 kernel whose weights are all `10`. -/
def allTenKernel : Kernel := [[10, 10], [10, 10]]

section Lemmas

lemma foldl_add_eq (f : ℕ → ℚ) (n : ℕ) :
    ∀ a : ℚ, (List.range n).foldl (fun acc i => acc + f i) a
      = a + ∑ i ∈ Finset.range n, f i := by
  induction n with
  | zero => intro a; simp
  | succ n ih =>
      intro a
      rw [List.range_succ, List.foldl_append, ih, Finset.sum_range_succ]
      simp [add_assoc]

lemma convSum_eq_sum (img : Image) (ker : Kernel) (x y : ℕ) (c : Fin 3) :
    convSum img ker x y c
      = ∑ ky ∈ Finset.range ker.length, ∑ kx ∈ Finset.range ker.length,
          (img.pix (nbX img ker x kx) (nbY img ker y ky) c : ℚ) * kentry ker ky kx := by
  unfold convSum
  simp only [foldl_add_eq, zero_add]

lemma clampedCoord_self (x bound : ℕ) (h : x < bound) :
    clampedCoord (x : ℤ) bound = x := by
  unfold clampedCoord clampI
  omega

lemma clampedCoord_lt (p : ℤ) (bound : ℕ) (h : 0 < bound) :
    clampedCoord p bound < bound := by
  unfold clampedCoord clampI
  omega

lemma clampedCoord_one (p : ℤ) : clampedCoord p 1 = 0 := by
  unfold clampedCoord clampI
  omega

lemma getD_replicate {α : Type} (a d : α) (n i : ℕ) (h : i < n) :
    (List.replicate n a).getD i d = a := by
  induction n generalizing i with
  | zero => omega
  | succ n ih =>
      rw [List.replicate_succ]
      cases i with
      | zero => rfl
      | succ i => exact ih i (by omega)

lemma getD_mem {α : Type} (l : List α) (d : α) (i : ℕ) (h : i < l.length) :
    l.getD i d ∈ l := by
  induction l generalizing i with
  | nil => simp at h
  | cons hd tl ih =>
      cases i with
      | zero => simp [List.getD]
      | succ i =>
          right
          exact ih i (by simpa using h)

lemma getD_map_sum (l : Kernel) (i : ℕ) (h : i < l.length) :
    (l.map List.sum).getD i 0 = (l.getD i []).sum := by
  induction l generalizing i with
  | nil => simp at h
  | cons hd tl ih =>
      cases i with
      | zero => rfl
      | succ i => exact ih i (by simpa using h)

lemma sum_range_getD (l : List ℚ) :
    ∑ i ∈ Finset.range l.length, l.getD i 0 = l.sum := by
  induction l with
  | nil => simp
  | cons hd tl ih =>
      rw [List.length_cons, Finset.sum_range_succ']
      simp only [List.getD_cons_succ, List.getD_cons_zero, List.sum_cons, ih]
      ring

lemma kernelSum_eq_double_sum (ker : Kernel) (hsq : Kernel.Square ker) :
    kernelSum ker
      = ∑ ky ∈ Finset.range ker.length, ∑ kx ∈ Finset.range ker.length,
          kentry ker ky kx := by
  unfold kernelSum
  have hmap := sum_range_getD (ker.map List.sum)
  rw [List.length_map] at hmap
  rw [← hmap]
  refine Finset.sum_congr rfl fun ky hky => ?_
  rw [Finset.mem_range] at hky
  rw [getD_map_sum ker ky hky]
  have hrow : (ker.getD ky []).length = ker.length :=
    hsq _ (getD_mem ker [] ky hky)
  rw [← sum_range_getD (ker.getD ky []), hrow]
  rfl

lemma roundAway_natCast (n : ℕ) : roundAway (n : ℚ) = n := by
  unfold roundAway
  rw [if_pos (by positivity)]
  rw [Int.floor_eq_iff]
  push_cast
  constructor <;> linarith

lemma quantize_natCast (n : ℕ) (h : n ≤ 255) : quantize (n : ℚ) = n := by
  unfold quantize clampI
  rw [roundAway_natCast]
  omega

lemma roundAway_ge (q : ℚ) (z : ℤ) (h : (z : ℚ) ≤ q) (hz : 0 ≤ z) :
    z ≤ roundAway q := by
  unfold roundAway
  rw [if_pos (le_trans (by exact_mod_cast hz) h)]
  rw [Int.le_floor]
  linarith

lemma quantize_ge_255 (q : ℚ) (h : 255 ≤ q) : quantize q = 255 := by
  unfold quantize clampI
  have h255 : (255 : ℤ) ≤ roundAway q := roundAway_ge q 255 (by exact_mod_cast h) (by norm_num)
  omega

lemma nbX_lt (img : Image) (ker : Kernel) (x kx : ℕ) (h : 0 < img.width) :
    nbX img ker x kx < img.width :=
  clampedCoord_lt _ _ h

lemma nbY_lt (img : Image) (ker : Kernel) (y ky : ℕ) (h : 0 < img.height) :
    nbY img ker y ky < img.height :=
  clampedCoord_lt _ _ h

lemma convImage_pix (img : Image) (ker : Kernel) (x y : ℕ) (c : Fin 3)
    (hx : x < img.width) (hy : y < img.height) :
    (convImage img ker).pix x y c = quantize (convSum img ker x y c) := by
  have hproj : (convImage img ker).pix x y c
      = ((convPixelChecked img ker x y).getD (fun _ => 0)) c := rfl
  rw [hproj]
  unfold convPixelChecked
  rw [if_pos (Or.inr ⟨by omega, by omega⟩)]
  rfl

lemma convImage_pix_empty_ker (img : Image) (ker : Kernel) (hker : ker.length = 0)
    (x y : ℕ) (c : Fin 3) :
    (convImage img ker).pix x y c = quantize (convSum img ker x y c) := by
  have hproj : (convImage img ker).pix x y c
      = ((convPixelChecked img ker x y).getD (fun _ => 0)) c := rfl
  rw [hproj]
  unfold convPixelChecked
  rw [if_pos (Or.inl hker)]
  rfl

lemma mem_processedPixels (img : Image) (p : ℕ × ℕ) :
    p ∈ processedPixels img ↔ p.1 < img.width ∧ p.2 < img.height := by
  cases p with
  | mk x y =>
      simp only [processedPixels, List.mem_flatMap, List.mem_map, List.mem_range]
      constructor
      · rintro ⟨b, hb, a, ha, heq⟩
        cases heq
        exact ⟨ha, hb⟩
      · rintro ⟨hx, hy⟩
        exact ⟨y, hy, x, hx, rfl⟩

lemma apply_convolution_eq (img : Image) (ker : Kernel) :
    apply_convolution img ker = some (convImage img ker) := by
  unfold apply_convolution
  rw [if_pos]
  rw [List.all_eq_true]
  intro p hp
  rw [mem_processedPixels] at hp
  unfold convPixelChecked
  rw [if_pos (Or.inr ⟨by omega, by omega⟩)]
  rfl

lemma get?_eq_getD {α : Type} (l : List α) (d : α) (i : ℕ) (h : i < l.length) :
    l.get? i = some (l.getD i d) := by
  induction l generalizing i with
  | nil => simp at h
  | cons hd tl ih =>
      cases i with
      | zero => rfl
      | succ i => exact ih i (by simpa using h)

lemma roundAway_zero : roundAway 0 = 0 := by
  unfold roundAway
  rw [if_pos le_rfl, zero_add, Int.floor_eq_iff]
  norm_num

lemma quantize_zero : quantize 0 = 0 := by
  unfold quantize clampI
  rw [roundAway_zero]
  rfl

end Lemmas

/-- C1: for every image `img` and kernel `k`, `apply_convolution img k`
succeeds and returns a fresh image whose width and height equal those of
`img`. -/
theorem apply_convolution_preserves_dimensions (img : Image) (ker : Kernel) :
    apply_convolution img ker = some (convImage img ker) ∧
    (convImage img ker).width = img.width ∧
    (convImage img ker).height = img.height :=
  ⟨apply_convolution_eq img ker, rfl, rfl⟩

/-- C2: for every odd `size ≥ 1`, `generate_box_blur_kernel size` is a
`size × size` matrix every cell of which is `1 / size²`, and the sum of
its `size²` weights is exactly `1` (hence within floating-point epsilon
of `1.0`). -/
theorem generate_box_blur_kernel_spec (size : ℕ) (_hodd : Odd size) (hs : 1 ≤ size) :
    (generate_box_blur_kernel size).length = size ∧
    (∀ row ∈ generate_box_blur_kernel size,
      row.length = size ∧ ∀ q ∈ row, q = 1 / ((size * size : ℕ) : ℚ)) ∧
    kernelSum (generate_box_blur_kernel size) = 1 := by
  refine ⟨List.length_replicate _ _, fun row hrow => ?_, ?_⟩
  · rw [List.eq_of_mem_replicate hrow]
    exact ⟨List.length_replicate _ _, fun q hq => List.eq_of_mem_replicate hq⟩
  · unfold kernelSum generate_box_blur_kernel
    rw [List.map_replicate, List.sum_replicate, List.sum_replicate,
      nsmul_eq_mul, nsmul_eq_mul]
    have hs0 : ((size : ℚ)) ≠ 0 := Nat.cast_ne_zero.mpr (by omega)
    push_cast
    field_simp

/-- Witness for C2 at `size = 3`. -/
theorem generate_box_blur_kernel_spec_witness :
    Odd 3 ∧ 1 ≤ 3 ∧ kernelSum (generate_box_blur_kernel 3) = 1 :=
  ⟨by decide, by norm_num,
    (generate_box_blur_kernel_spec 3 (by decide) (by norm_num)).2.2⟩

/-- C3: `generate_sharpen_kernel` is exactly the fixed 3×3 matrix with
rows `[0, -1, 0]`, `[-1, 5, -1]`, `[0, -1, 0]`, and its nine weights sum
to exactly `1`. -/
theorem generate_sharpen_kernel_spec :
    generate_sharpen_kernel = [[0, -1, 0], [-1, 5, -1], [0, -1, 0]] ∧
    kernelSum generate_sharpen_kernel = 1 := by
  refine ⟨rfl, ?_⟩
  norm_num [kernelSum, generate_sharpen_kernel]

/-- C4: convolving any well-formed image with the 1×1 kernel `[[1]]`
returns an image identical to the input: same dimensions, and every
channel of every pixel unchanged (identity convolution). -/
theorem apply_convolution_identity (img : Image) (hwf : Image.Wf img) :
    (convImage img [[(1 : ℚ)]]).width = img.width ∧
    (convImage img [[(1 : ℚ)]]).height = img.height ∧
    ∀ x y c, x < img.width → y < img.height →
      (convImage img [[(1 : ℚ)]]).pix x y c = img.pix x y c := by
  refine ⟨rfl, rfl, fun x y c hx hy => ?_⟩
  have hnbx : nbX img [[(1 : ℚ)]] x 0 = x := by
    unfold nbX halfK clampedCoord clampI
    simp only [List.length_cons, List.length_nil]
    omega
  have hnby : nbY img [[(1 : ℚ)]] y 0 = y := by
    unfold nbY halfK clampedCoord clampI
    simp only [List.length_cons, List.length_nil]
    omega
  have hlen : ([[(1 : ℚ)]] : Kernel).length = 1 := rfl
  rw [convImage_pix _ _ _ _ _ hx hy, convSum_eq_sum, hlen,
    Finset.sum_range_one, Finset.sum_range_one, hnbx, hnby]
  have hk : kentry [[(1 : ℚ)]] 0 0 = 1 := rfl
  rw [hk, mul_one, quantize_natCast _ (hwf x y c hx hy)]

/-- Witness for C4 on the concrete 2×2 image `testImg`. -/
theorem apply_convolution_identity_witness :
    (convImage testImg [[(1 : ℚ)]]).pix 0 1 0 = testImg.pix 0 1 0 :=
  (apply_convolution_identity testImg
      (fun _ _ _ _ _ => by norm_num [testImg])).2.2 0 1 0 (by decide) (by decide)

/-- C5: every output channel is the accumulated weighted sum rounded
half-away-from-zero and saturating-clamped into `[0, 255]`; and on an
all-white image, any non-empty square kernel whose weights are all `10`
produces `255` in every output channel (saturation, no wrap-around). -/
theorem apply_convolution_round_clamp (img : Image) (ker : Kernel) (x y : ℕ) (c : Fin 3)
    (hx : x < img.width) (hy : y < img.height) :
    (convImage img ker).pix x y c
      = (clampI (roundAway (∑ ky ∈ Finset.range ker.length, ∑ kx ∈ Finset.range ker.length,
          (img.pix (nbX img ker x kx) (nbY img ker y ky) c : ℚ) * kentry ker ky kx)) 0 255).toNat
    ∧ (1 ≤ ker.length → Kernel.Square ker →
       (∀ row ∈ ker, ∀ q ∈ row, q = 10) →
       (∀ a b d, a < img.width → b < img.height → img.pix a b d = 255) →
       (convImage img ker).pix x y c = 255) := by
  constructor
  · rw [convImage_pix _ _ _ _ _ hx hy, convSum_eq_sum]
    rfl
  · intro hk hsq h10 hwhite
    rw [convImage_pix _ _ _ _ _ hx hy]
    have hterm : ∀ ky < ker.length, ∀ kx < ker.length,
        (img.pix (nbX img ker x kx) (nbY img ker y ky) c : ℚ) * kentry ker ky kx = 2550 := by
      intro ky hky kx hkx
      have hrow := getD_mem ker [] ky hky
      have hlen : (ker.getD ky []).length = ker.length := hsq _ hrow
      have hq : kentry ker ky kx = 10 :=
        h10 _ hrow _ (getD_mem _ 0 kx (by omega))
      rw [hq, hwhite _ _ _ (nbX_lt _ _ _ _ (by omega)) (nbY_lt _ _ _ _ (by omega))]
      norm_num
    have hsum : convSum img ker x y c = (ker.length : ℚ) * (ker.length : ℚ) * 2550 := by
      rw [convSum_eq_sum,
        Finset.sum_congr rfl (fun ky hky => Finset.sum_congr rfl (fun kx hkx =>
          hterm ky (Finset.mem_range.mp hky) kx (Finset.mem_range.mp hkx)))]
      simp only [Finset.sum_const, Finset.card_range, nsmul_eq_mul]
      ring
    rw [hsum]
    apply quantize_ge_255
    have h1 : (1 : ℚ) ≤ (ker.length : ℚ) := by exact_mod_cast hk
    nlinarith

/-- Witness for C5: the all-ten 2×2 kernel on the 1×1 white image
saturates to 255. -/
theorem apply_convolution_round_clamp_witness :
    (convImage whiteImg allTenKernel).pix 0 0 0 = 255 :=
  (apply_convolution_round_clamp whiteImg allTenKernel 0 0 0 (by decide) (by decide)).2
    (by decide)
    (by
      intro row hrow
      simp only [allTenKernel, List.mem_cons, List.not_mem_nil, or_false] at hrow
      rcases hrow with rfl | rfl <;> rfl)
    (by
      intro row hrow
      simp only [allTenKernel, List.mem_cons, List.not_mem_nil, or_false] at hrow
      rcases hrow with rfl | rfl <;>
        (intro q hq
         simp only [List.mem_cons, List.not_mem_nil, or_false] at hq
         rcases hq with rfl | rfl <;> rfl))
    (fun _ _ _ _ _ => rfl)

/-- C6: box-blurring a uniform-colour image (any nonzero size, any odd
kernel size ≥ 1) returns an image of the same dimensions and the same
uniform colour; in particular every output channel is within ±1 of the
input channel value. -/
theorem apply_convolution_box_blur_uniform (img : Image) (size : ℕ) (v : Fin 3 → ℕ)
    (_hodd : Odd size) (hs : 1 ≤ size)
    (huni : ∀ x y c, x < img.width → y < img.height → img.pix x y c = v c)
    (hv : ∀ c, v c ≤ 255) :
    (convImage img (generate_box_blur_kernel size)).width = img.width ∧
    (convImage img (generate_box_blur_kernel size)).height = img.height ∧
    ∀ x y c, x < img.width → y < img.height →
      (convImage img (generate_box_blur_kernel size)).pix x y c = v c ∧
      (convImage img (generate_box_blur_kernel size)).pix x y c ≤ v c + 1 ∧
      v c ≤ (convImage img (generate_box_blur_kernel size)).pix x y c + 1 := by
  refine ⟨rfl, rfl, fun x y c hx hy => ?_⟩
  have hlen : (generate_box_blur_kernel size).length = size := List.length_replicate _ _
  have hpix : (convImage img (generate_box_blur_kernel size)).pix x y c = v c := by
    rw [convImage_pix _ _ _ _ _ hx hy]
    have hsum : convSum img (generate_box_blur_kernel size) x y c = (v c : ℚ) := by
      rw [convSum_eq_sum, hlen]
      have hterm : ∀ ky < size, ∀ kx < size,
          (img.pix (nbX img (generate_box_blur_kernel size) x kx)
              (nbY img (generate_box_blur_kernel size) y ky) c : ℚ)
            * kentry (generate_box_blur_kernel size) ky kx
          = (v c : ℚ) * (1 / ((size * size : ℕ) : ℚ)) := by
        intro ky hky kx hkx
        have hk : kentry (generate_box_blur_kernel size) ky kx
            = 1 / ((size * size : ℕ) : ℚ) := by
          unfold kentry generate_box_blur_kernel
          rw [getD_replicate _ _ _ _ hky, getD_replicate _ _ _ _ hkx]
        rw [hk, huni _ _ _ (nbX_lt _ _ _ _ (by omega)) (nbY_lt _ _ _ _ (by omega))]
      rw [Finset.sum_congr rfl (fun ky hky => Finset.sum_congr rfl (fun kx hkx =>
        hterm ky (Finset.mem_range.mp hky) kx (Finset.mem_range.mp hkx)))]
      have hs0 : ((size : ℚ)) ≠ 0 := Nat.cast_ne_zero.mpr (by omega)
      simp only [Finset.sum_const, Finset.card_range, nsmul_eq_mul]
      push_cast
      field_simp
      ring
    rw [hsum, quantize_natCast _ (hv c)]
  exact ⟨hpix, by omega, by omega⟩

/-- Witness for C6 on the uniform 2×2 image `testImg` with a 3×3 box
blur. -/
theorem apply_convolution_box_blur_uniform_witness :
    (convImage testImg (generate_box_blur_kernel 3)).pix 1 1 2 = 7 :=
  ((apply_convolution_box_blur_uniform testImg 3 (fun _ => 7) (by decide) (by norm_num)
      (fun _ _ _ _ _ => rfl) (fun _ => by norm_num)).2.2 1 1 2 (by decide) (by decide)).1

/-- C7: on a 1×1 image, edge clamping sends every neighbourhood sample to
the single pixel, so convolution with any odd-size square kernel yields
that pixel's channel value scaled by the sum of all kernel weights,
rounded and clamped into `[0, 255]`. -/
theorem apply_convolution_one_pixel (img : Image) (ker : Kernel)
    (hw : img.width = 1) (hh : img.height = 1)
    (hsq : Kernel.Square ker) (_hodd : Odd ker.length) :
    (∀ c, (convImage img ker).pix 0 0 c
        = quantize ((img.pix 0 0 c : ℚ) * kernelSum ker)) ∧
    (∀ kx, nbX img ker 0 kx = 0) ∧ (∀ ky, nbY img ker 0 ky = 0) := by
  have hnx : ∀ kx, nbX img ker 0 kx = 0 := by
    intro kx
    unfold nbX
    rw [hw]
    exact clampedCoord_one _
  have hny : ∀ ky, nbY img ker 0 ky = 0 := by
    intro ky
    unfold nbY
    rw [hh]
    exact clampedCoord_one _
  refine ⟨fun c => ?_, hnx, hny⟩
  rw [convImage_pix _ _ _ _ _ (by omega) (by omega), convSum_eq_sum,
    kernelSum_eq_double_sum ker hsq, Finset.mul_sum]
  congr 1
  refine Finset.sum_congr rfl fun ky _ => ?_
  rw [Finset.mul_sum]
  exact Finset.sum_congr rfl fun kx _ => by rw [hnx kx, hny ky]

/-- Witness for C7: the sharpen kernel on a 1×1 all-white image. -/
theorem apply_convolution_one_pixel_witness :
    (convImage whiteImg generate_sharpen_kernel).pix 0 0 0
      = quantize ((whiteImg.pix 0 0 0 : ℚ) * kernelSum generate_sharpen_kernel) :=
  (apply_convolution_one_pixel whiteImg generate_sharpen_kernel rfl rfl
      (by
        intro row hrow
        simp only [generate_sharpen_kernel, List.mem_cons, List.not_mem_nil, or_false] at hrow
        rcases hrow with rfl | rfl | rfl <;> rfl)
      (by decide)).1 0

/-- C8: on an image with zero width or zero height, `apply_convolution`
raises no error and returns an empty image of the same dimensions; the
pixel loop visits no pixel, so the clamp bounds `width - 1` /
`height - 1` are never evaluated on a zero dimension. -/
theorem apply_convolution_zero_dim (img : Image) (ker : Kernel)
    (h : img.width = 0 ∨ img.height = 0) :
    apply_convolution img ker = some (convImage img ker) ∧
    (convImage img ker).width = img.width ∧
    (convImage img ker).height = img.height ∧
    (convImage img ker).width * (convImage img ker).height = 0 ∧
    processedPixels img = [] := by
  refine ⟨apply_convolution_eq img ker, rfl, rfl, ?_, ?_⟩
  · show img.width * img.height = 0
    rcases h with h | h <;> simp [h]
  · rw [List.eq_nil_iff_forall_not_mem]
    intro p hp
    rw [mem_processedPixels] at hp
    omega

/-- Witness for C8 on the 0×2 image `emptyImg` with the sharpen kernel. -/
theorem apply_convolution_zero_dim_witness :
    apply_convolution emptyImg generate_sharpen_kernel
      = some (convImage emptyImg generate_sharpen_kernel) ∧
    processedPixels emptyImg = [] :=
  ⟨(apply_convolution_zero_dim emptyImg generate_sharpen_kernel (Or.inl rfl)).1,
   (apply_convolution_zero_dim emptyImg generate_sharpen_kernel (Or.inl rfl)).2.2.2.2⟩

/-- C9: every kernel produced by `generate_box_blur_kernel` or
`generate_sharpen_kernel` is square, and for it every access
`kernel[ky][kx]` with `ky, kx < kernel.len()` is in bounds: the indexing
returns `some` value (the panic branch is unreachable), namely the value
the engine uses. -/
theorem generated_kernels_square_safe (ker : Kernel)
    (hgen : (∃ size, ker = generate_box_blur_kernel size) ∨ ker = generate_sharpen_kernel) :
    Kernel.Square ker ∧
    ∀ ky kx, ky < ker.length → kx < ker.length →
      kernelGet ker ky kx = some (kentry ker ky kx) := by
  have hsq : Kernel.Square ker := by
    rcases hgen with ⟨size, rfl⟩ | rfl
    · intro row hrow
      rw [List.eq_of_mem_replicate hrow]
      simp [generate_box_blur_kernel]
    · intro row hrow
      simp only [generate_sharpen_kernel, List.mem_cons, List.not_mem_nil, or_false] at hrow
      rcases hrow with rfl | rfl | rfl <;> rfl
  refine ⟨hsq, fun ky kx hky hkx => ?_⟩
  unfold kernelGet kentry
  rw [get?_eq_getD ker [] ky hky]
  have hlen : (ker.getD ky []).length = ker.length := hsq _ (getD_mem ker [] ky hky)
  rw [Option.some_bind, get?_eq_getD (ker.getD ky []) 0 kx (by omega)]

/-- Witness for C9 at the 3×3 box-blur kernel, index (1, 2). -/
theorem generated_kernels_square_safe_witness :
    kernelGet (generate_box_blur_kernel 3) 1 2
      = some (kentry (generate_box_blur_kernel 3) 1 2) :=
  (generated_kernels_square_safe _ (Or.inl ⟨3, rfl⟩)).2 1 2 (by decide) (by decide)

/-- C10: convolving any non-empty image with the empty kernel succeeds
and returns an image of the same dimensions whose every channel is 0:
the accumulation loops run zero times and the zero sums round and clamp
to 0. -/
theorem apply_convolution_empty_kernel (img : Image)
    (_hw : 0 < img.width) (_hh : 0 < img.height) :
    apply_convolution img [] = some (convImage img []) ∧
    (convImage img []).width = img.width ∧
    (convImage img []).height = img.height ∧
    ∀ x y c, x < img.width → y < img.height → (convImage img []).pix x y c = 0 := by
  refine ⟨apply_convolution_eq img [], rfl, rfl, fun x y c hx hy => ?_⟩
  rw [convImage_pix _ _ _ _ _ hx hy]
  have h0 : convSum img [] x y c = 0 := rfl
  rw [h0, quantize_zero]

/-- Witness for C10 on the 2×2 image `testImg`. -/
theorem apply_convolution_empty_kernel_witness :
    (convImage testImg []).pix 1 0 2 = 0 :=
  (apply_convolution_empty_kernel testImg (by decide) (by decide)).2.2.2 1 0 2
    (by decide) (by decide)

end KernelRs
